import Mathlib

/-!
Verification of the genetic-sudoku core (grid model, bit-packed duplicate
scorer, GA parameter derivation, natural selection, pairing, crossover with
mutation, restart policy, and the per-generation simulation driver).

The embedding follows `src/sudoku.rs` and `src/genetics.rs`:

* a `Board<N>` (fixed array `[Row<N>; N]` of `[u8; N]`) is embedded as a
  `List (List ℕ)` together with a well-formedness predicate `Board.Wf N`
  stating the fixed `N × N` shape; cell reads go through `cell`, which
  models array indexing (indices are always in range where the source
  indexes);
* `u8`/`u64` arithmetic is embedded on `ℕ`, with an explicit `% 256` where
  the `u8` accumulators of `fitness` can overflow (`count_row_duplicates8`
  and friends); the `u64` bitmask of `Scorer` is embedded as an `ℕ`
  bitmask, exact because every digit fed to it is at most `N ≤ 25 < 64`;
* the `f32` computation in `GAParams::new` is embedded exactly: an `f32`
  value is a rational, and `f32round` performs IEEE-754 binary32
  round-to-nearest-even of a rational (faithful for every magnitude down
  to `2 ^ (-200)`, far below the subnormal range);
* `thread_rng` draws are embedded as explicit oracle streams (`Rng`):
  `gen` models `rng.gen::<f32>()` (values in `[0, 1)`), `inherits_from`
  models `rng.sample(Uniform::from(0..=1))`, and `mutation_value` models
  `rng.sample(Uniform::from(1..=max_digit))`. Distinct draw sites consume
  distinct stream positions via `Nat.pair` indices, so quantifying over
  all streams covers every possible execution;
* `par_sort_unstable_by_key` guarantees only that the result is a
  permutation of the input sorted by the key (it may reorder equal
  elements, and rayon does not specify which order results). Statements
  about selection therefore quantify over every list satisfying
  `SortSpec`; the executable model `natural_selection` fixes one
  admissible outcome (a stable insertion sort);
* rayon's parallel `collect::<Result<_, _>>` short-circuits on an error;
  the embedding `collectExcept` fixes the first error in list order (the
  claims proved about it do not depend on which error is picked);
* Rust panics (population above the cap, zero parent pairs, unsupported
  grid size) are embedded as `Option`/`none` results.
-/

namespace GeneticSudoku

/-! ### Scorer (src/sudoku.rs, `struct Scorer`) -/

/-- One duplicate-counting accumulator: `seen` is the `u64` bitmask of
digits already encountered, `score` the duplicate count (`u8`; it never
exceeds the number of checks, at most `N ≤ 25`, so `ℕ` is exact). -/
structure Scorer where
  seen : ℕ
  score : ℕ
  deriving Repr, DecidableEq

instance : Inhabited Scorer := ⟨⟨0, 0⟩⟩

/-- `Scorer::check`: if bit `digit` is set, bump `score`, else set the bit. -/
def Scorer.check (s : Scorer) (digit : ℕ) : Scorer :=
  if s.seen.testBit digit then { s with score := s.score + 1 }
  else { s with seen := s.seen ||| (1 <<< digit) }

/-- Run a fresh scorer over a list of digits (the per-row/box loop). -/
def scorerRun (l : List ℕ) : Scorer := l.foldl Scorer.check ⟨0, 0⟩

/-- The score a fresh scorer reports after checking `l` in order. -/
def scorerScore (l : List ℕ) : ℕ := (scorerRun l).score

/-! ### Grid model (src/sudoku.rs, `Board<N>` / `Row<N>`) -/

/-- A board is its list of rows; `Board.Wf N` pins the `[Row<N>; N]` shape. -/
abbrev Board : Type := List (List ℕ)

/-- The fixed-size-array invariant of `Board<N>`. -/
def Board.Wf (N : ℕ) (g : Board) : Prop :=
  g.length = N ∧ ∀ r ∈ g, r.length = N

instance (N : ℕ) (g : Board) : Decidable (Board.Wf N g) := by
  unfold Board.Wf; infer_instance

/-- Array read `self.0[i].0[j]` (always in range at source call sites). -/
def cell (g : Board) (i j : ℕ) : ℕ := (g.getD i []).getD j 0

/-- Build the `N × N` board whose `(i, j)` cell is `f i j` (models the
`[Row::default(); N]` buffer filled by nested index loops). -/
def Board.ofFn (N : ℕ) (f : ℕ → ℕ → ℕ) : Board :=
  (List.range N).map fun i => (List.range N).map fun j => f i j

/-- `Board::overlay`: keep fixed (non-zero) base cells, take the overlay's
digit on blank (zero) base cells. -/
def overlay (N : ℕ) (base ov : Board) : Board :=
  Board.ofFn N fun i j => if cell base i j = 0 then cell ov i j else cell base i j

/-- `Board::transpose`. -/
def transpose (N : ℕ) (g : Board) : Board :=
  Board.ofFn N fun i j => cell g j i

/-- The `match N` in `count_box_duplicates`: the box edge for the supported
sizes, `none` standing for the `panic!` on any other size. -/
def boxSize (N : ℕ) : Option ℕ :=
  if N = 4 then some 2
  else if N = 9 then some 3
  else if N = 16 then some 4
  else if N = 25 then some 5
  else none

/-- `count_row_duplicates`, exact sum (no `u8` wrap-around). -/
def count_row_duplicates (g : Board) : ℕ := (g.map scorerScore).sum

/-- `count_row_duplicates` with the `u8` accumulator taken mod 256, exactly
as `total_duplicates += scorer.score()` computes in release mode. -/
def count_row_duplicates8 (g : Board) : ℕ :=
  g.foldl (fun total r => (total + scorerScore r) % 256) 0

/-- The digits of the box whose top-left corner is `(br * b, bc * b)`, read
in the row-major order of the source loops. -/
def boxCells (g : Board) (b br bc : ℕ) : List ℕ :=
  (List.range b).flatMap fun dr => (List.range b).map fun dc =>
    cell g (br * b + dr) (bc * b + dc)

/-- The per-box scores; the source iterates `row`/`col` over
`(0..N).step_by(box_size)`, i.e. over `br * b` and `bc * b` for
`br, bc < b` (with `N = b * b` at each supported size). -/
def boxScores (g : Board) (b : ℕ) : List ℕ :=
  (List.range b).flatMap fun br => (List.range b).map fun bc =>
    scorerScore (boxCells g b br bc)

/-- `count_box_duplicates` at box edge `b`, exact sum. -/
def count_box_duplicates (g : Board) (b : ℕ) : ℕ := (boxScores g b).sum

/-- `count_box_duplicates` with the `u8` accumulator taken mod 256. -/
def count_box_duplicates8 (g : Board) (b : ℕ) : ℕ :=
  (boxScores g b).foldl (fun total s => (total + s) % 256) 0

/-- The exact (unwrapped) sum of the three duplicate groups: the value
`Board::fitness` would return if its `u8` accumulators never wrapped. The
faithful embedding of what the source returns is `fitness8With`; the two
agree exactly when this sum stays below 256 — guaranteed for `N ≤ 9`
(`fitness8_eq_fitness`) but violated on reachable 16×16/25×25 boards
(`C1_counterexample` exhibits a 25×25 board with exact sum 1792 whose `u8`
fitness is 0). -/
def fitnessWith (N b : ℕ) (g : Board) : ℕ :=
  count_row_duplicates g + count_row_duplicates (transpose N g)
    + count_box_duplicates g b

/-- The exact (unwrapped) fitness, `none` modelling the panic on an
unsupported size. The `u8` value the source's `Board::fitness` actually
returns is `fitness8`; statements about the program's behaviour use
`fitness8`, and `fitness` serves as the mathematical duplicate total it
wraps. -/
def fitness (N : ℕ) (g : Board) : Option ℕ :=
  (boxSize N).map fun b => fitnessWith N b g

/-- `Board::fitness` as the `u8` the source actually returns: each group
count wraps mod 256, and so does the final sum `a + b + c` (two `u8`
additions collapse to one mod). -/
def fitness8With (N b : ℕ) (g : Board) : ℕ :=
  (count_row_duplicates8 g + count_row_duplicates8 (transpose N g)
    + count_box_duplicates8 g b) % 256

/-- The `u8` fitness, `none` modelling the unsupported-size panic. -/
def fitness8 (N : ℕ) (g : Board) : Option ℕ :=
  (boxSize N).map fun b => fitness8With N b g

/-! ### IEEE-754 binary32 rounding (the `f32` arithmetic in `GAParams::new`) -/

/-- Round a rational to the nearest integer, ties to the even integer
(IEEE round-to-nearest-even on an integer-scaled significand). -/
def roundEvenQ (q : ℚ) : ℤ :=
  if q - ⌊q⌋ < 1 / 2 then ⌊q⌋
  else if 1 / 2 < q - ⌊q⌋ then ⌊q⌋ + 1
  else if 2 ∣ ⌊q⌋ then ⌊q⌋ else ⌊q⌋ + 1

/-- The binade exponent of a positive rational: the `e` with
`2 ^ e ≤ q < 2 ^ (e + 1)`, correct for every `q ≥ 2 ^ (-200)` (far below
the smallest positive `f32`). -/
def rexp (q : ℚ) : ℤ := (Nat.log 2 (Int.toNat ⌊q * 2 ^ (200 : ℕ)⌋) : ℤ) - 200

/-- Round a rational to the nearest `f32` (24-bit significand,
round-to-nearest-even). `population as f32 * frac_reduction` is one exact
product followed by one such rounding. -/
def f32round (x : ℚ) : ℚ :=
  if x = 0 then 0
  else if 0 < x then (roundEvenQ (x / 2 ^ (rexp x - 23)) : ℚ) * 2 ^ (rexp x - 23)
  else -((roundEvenQ (-x / 2 ^ (rexp (-x) - 23)) : ℚ) * 2 ^ (rexp (-x) - 23))

/-! ### GA parameters (src/genetics.rs, `GAParams`) -/

def MAX_POPULATION : ℕ := 100

/-- The cached parameter block of `GAParams` (`mutation_rate` is the
rational value of the `f32` field; `restart` is the `Option<u64>`). -/
structure GAParams where
  population : ℕ
  num_survivors : ℕ
  num_children_per_parent_pairs : ℕ
  mutation_rate : ℚ
  restart : Option ℕ
  deriving Repr, DecidableEq

/-- `GAParams::new`. `none` models the two construction panics: the
`assert!(population <= MAX_POPULATION)` and the division by zero in
`population / num_parent_pairs` when the derived pair count is zero.
`num_survivors` is `(population as f32 * frac_reduction).floor() as usize`:
the exact product of the (exactly representable) population and the `f32`
fraction, rounded once to `f32`, then floored. -/
def GAParams.new (population : ℕ) (frac_reduction : ℚ) (mutation_rate : ℚ)
    (restart : Option ℕ) : Option GAParams :=
  if population ≤ MAX_POPULATION then
    if Int.toNat ⌊f32round ((population : ℚ) * frac_reduction)⌋ / 2 = 0 then none
    else some ⟨population,
      Int.toNat ⌊f32round ((population : ℚ) * frac_reduction)⌋,
      population / (Int.toNat ⌊f32round ((population : ℚ) * frac_reduction)⌋ / 2),
      mutation_rate, restart⟩
  else none

/-! ### Random oracle (thread_rng draws) -/

/-- Oracle streams for the three kinds of draws the source makes. Every
draw site reads its own position (built with `Nat.pair`), so one choice of
streams determines one possible execution and all executions arise from
some choice of streams. -/
structure Rng where
  gen : ℕ → ℚ
  inherits_from : ℕ → Fin 2
  mutation_value : ℕ → ℕ

/-- A stream is valid when `gen` draws lie in `[0, 1)` (the contract of
`rng.gen::<f32>()`) and digit draws lie in `1..=N` (the contract of
`Uniform::from(1..=max_digit)`). -/
def Rng.Valid (N : ℕ) (rng : Rng) : Prop :=
  (∀ k, 0 ≤ rng.gen k ∧ rng.gen k < 1) ∧
  (∀ k, 1 ≤ rng.mutation_value k ∧ rng.mutation_value k ≤ N)

/-! ### Population generation and evolution (src/genetics.rs) -/

/-- `generate_initial_population`: `population` boards, every cell an
independent draw from `1..=N`. -/
def generate_initial_population (N : ℕ) (p : GAParams) (rng : Rng) : List Board :=
  (List.range p.population).map fun bIdx =>
    Board.ofFn N fun i j => rng.mutation_value (Nat.pair bIdx (Nat.pair i j))

/-- One child cell of `make_children`: mutate with probability
`mutation_rate` (the `f32` comparison `rng.gen::<f32>() < mutation_rate`),
otherwise inherit from parent X on draw 0 and from parent Y on draw 1. -/
def make_child_cell (p : GAParams) (x y : ℕ) (rng : Rng) (k : ℕ) : ℕ :=
  if rng.gen k < p.mutation_rate then rng.mutation_value k
  else
    match rng.inherits_from k with
    | 0 => x
    | 1 => y

/-- `make_children`: `num_children_per_parent_pairs` offspring of one
parent pair; `pairIdx` separates the rng positions of distinct pairs (the
source gives each rayon task its own thread-local rng). -/
def make_children (N : ℕ) (p : GAParams) (parents : Board × Board) (rng : Rng)
    (pairIdx : ℕ) : List Board :=
  (List.range p.num_children_per_parent_pairs).map fun c =>
    Board.ofFn N fun i j =>
      make_child_cell p (cell parents.1 i j) (cell parents.2 i j) rng
        (Nat.pair pairIdx (Nat.pair c (Nat.pair i j)))

/-- Even-index / odd-index split of `make_parents`: the source partitions
survivors by `i % 2`, keeping order inside each class. -/
def splitParity : List Board → List Board × List Board
  | [] => ([], [])
  | a :: t => ((splitParity t).2.cons a, (splitParity t).1)

/-- `make_parents`: zip the even-index survivors with the odd-index ones
(positional zip; an odd leftover survivor is dropped by the zip). -/
def make_parents (survivors : List Board) : List (Board × Board) :=
  (splitParity survivors).1.zip (splitParity survivors).2

/-- The contract of `par_sort_unstable_by_key(|(_, score)| *score)`: the
result is a permutation of the input that is sorted by score. Nothing
more is guaranteed; equal scores may come out in any order. -/
def SortSpec (l tl : List (Board × ℕ)) : Prop :=
  l.Perm tl ∧ tl.Sorted fun a b => a.2 ≤ b.2

/-- `natural_selection` after the sort: keep (`drain`) the first
`num_survivors` scored entries of the sorted list and drop the scores. -/
def natural_selectionWith (p : GAParams) (tl : List (Board × ℕ)) : List Board :=
  (tl.take p.num_survivors).map Prod.fst

/-- The executable model of `natural_selection`, resolving the unstable
sort to one admissible outcome (a sort by score). The `drain` panics when
`num_survivors` exceeds the population; theorems carry that bound as a
hypothesis. -/
def natural_selection (p : GAParams) (population_scores : List (Board × ℕ)) :
    List Board :=
  natural_selectionWith p
    (population_scores.insertionSort fun a b => a.2 ≤ b.2)

/-- The selection / pairing / crossover pipeline of `next_generation`
(the non-restart branch). -/
def evolve (N : ℕ) (p : GAParams) (population_scores : List (Board × ℕ))
    (rng : Rng) : List Board :=
  (make_parents (natural_selection p population_scores)).enum.flatMap
    fun pr => make_children N p pr.2 rng pr.1

/-- `next_generation`: with a configured restart interval, a generation
counter that is a non-zero multiple of it short-circuits to a fresh random
population; everything else evolves the scored population. (`generation %
restart` panics in Rust when the interval is zero; theorems assume a
positive interval.) -/
def next_generation (N : ℕ) (p : GAParams) (generation : ℕ)
    (population_scores : List (Board × ℕ)) (rng : Rng) : List Board :=
  match p.restart with
  | some restart =>
      if generation % restart = 0 ∧ generation ≠ 0 then
        generate_initial_population N p rng
      else evolve N p population_scores rng
  | none => evolve N p population_scores rng

/-! ### Simulation driver (src/genetics.rs, `run_simulation`) -/

/-- The `Err` payload of `run_simulation`. The struct literal
`NoSolutionFound { next_generation }` in the source fixes the struct to
exactly this one field. -/
structure NoSolutionFound where
  next_generation : List Board
  deriving DecidableEq

/-- Collect a list of fallible results, short-circuiting on an error (the
sequential determinization of rayon's `collect::<Result<Vec<_>, _>>`; the
properties proved below do not depend on which error rayon would pick). -/
def collectExcept {E A : Type} : List (Except E A) → Except E (List A)
  | [] => Except.ok []
  | Except.error e :: _ => Except.error e
  | Except.ok a :: t => (collectExcept t).map fun as => a :: as

/-- The scored overlays `(base.overlay(candidate), fitness)` built inside
`run_simulation`, with the `u8` fitness the source compares to zero. -/
def scoredOf (N b : ℕ) (base : Board) (population : List Board) :
    List (Board × ℕ) :=
  population.map fun candidate =>
    (overlay N base candidate, fitness8With N b (overlay N base candidate))

/-- The per-candidate closure inside `run_simulation`: overlay, score with
the `u8` fitness, and short-circuit a zero score as the error case. -/
def scoreStep (N b : ℕ) (base candidate : Board) : Except Board (Board × ℕ) :=
  if fitness8With N b (overlay N base candidate) = 0 then
    Except.error (overlay N base candidate)
  else Except.ok (overlay N base candidate, fitness8With N b (overlay N base candidate))

/-- `run_simulation`: overlay and score every candidate; a zero-score
overlay short-circuits out as `Ok(solution)`, otherwise the scored list
feeds `next_generation` and comes back as `Err(NoSolutionFound)`. The
outer `none` models the fitness panic on an unsupported size. -/
def run_simulation (N : ℕ) (p : GAParams) (generation : ℕ) (base : Board)
    (population : List Board) (rng : Rng) :
    Option (Except NoSolutionFound Board) :=
  match boxSize N with
  | none => none
  | some b =>
    match collectExcept (population.map (scoreStep N b base)) with
    | Except.error valid_solution => some (Except.ok valid_solution)
    | Except.ok population_scores =>
        some (Except.error ⟨next_generation N p generation population_scores rng⟩)

/-- Modelled from the spec: "the grid that currently scores best (for
progress display)". No such grid exists anywhere in the source
`run_simulation` result; this definition exists only to state what the
spec claims the `Err` payload carries — the earliest minimal-score entry
of the scored list. -/
def best_current_grid (population_scores : List (Board × ℕ)) : Option Board :=
  (population_scores.argmin Prod.snd).map Prod.fst

/-! ### Scorer lemmas -/

/-- One `check` step: a digit whose bit is set bumps the score by exactly
one, a fresh digit leaves it unchanged. -/
theorem Scorer.check_score (s : Scorer) (d : ℕ) :
    (Scorer.check s d).score = if s.seen.testBit d then s.score + 1 else s.score := by
  unfold Scorer.check
  split <;> simp_all

/-- Invariant of the scoring fold: starting from a bitmask whose set bits
are exactly the finite set `S`, the final score counts the checks that hit
an already-seen digit, and the final bitmask holds `S` plus the digits of
the list. -/
theorem scorer_foldl (l : List ℕ) : ∀ (seen sc : ℕ) (S : Finset ℕ),
    (∀ d, seen.testBit d ↔ d ∈ S) →
    (l.foldl Scorer.check ⟨seen, sc⟩).score
        = sc + l.length + S.card - (S ∪ l.toFinset).card
      ∧ ∀ d, (l.foldl Scorer.check ⟨seen, sc⟩).seen.testBit d ↔ d ∈ S ∪ l.toFinset := by
  induction l with
  | nil => intro seen sc S h; simpa using h
  | cons d t ih =>
    intro seen sc S h
    by_cases hd : seen.testBit d
    · have hdS : d ∈ S := (h d).mp hd
      have hstep : Scorer.check ⟨seen, sc⟩ d = ⟨seen, sc + 1⟩ := by
        simp [Scorer.check, hd]
      have hUn : S ∪ (d :: t).toFinset = S ∪ t.toFinset := by
        rw [List.toFinset_cons, Finset.union_insert,
          Finset.insert_eq_self.mpr (Finset.mem_union_left _ hdS)]
      have := ih seen (sc + 1) S h
      refine ⟨?_, ?_⟩
      · rw [List.foldl_cons, hstep, hUn]
        rw [this.1]
        simp only [List.length_cons]
        omega
      · intro e
        rw [List.foldl_cons, hstep, hUn]
        exact this.2 e
    · have hdS : d ∉ S := fun hm => hd ((h d).mpr hm)
      have hstep : Scorer.check ⟨seen, sc⟩ d = ⟨seen ||| (1 <<< d), sc⟩ := by
        simp [Scorer.check, hd]
      have hbits : ∀ e, (seen ||| (1 <<< d)).testBit e ↔ e ∈ insert d S := by
        intro e
        rw [Nat.testBit_lor, Nat.shiftLeft_eq, one_mul, Nat.testBit_two_pow]
        simp only [Bool.or_eq_true, decide_eq_true_eq, Finset.mem_insert, h e]
        constructor
        · rintro (h1 | h1)
          · exact Or.inr h1
          · exact Or.inl h1.symm
        · rintro (h1 | h1)
          · exact Or.inr h1.symm
          · exact Or.inl h1
      have := ih (seen ||| (1 <<< d)) sc (insert d S) hbits
      have hUn : insert d S ∪ t.toFinset = S ∪ (d :: t).toFinset := by
        rw [List.toFinset_cons, Finset.insert_union, Finset.union_insert]
      have hcard : (insert d S).card = S.card + 1 := Finset.card_insert_of_not_mem hdS
      refine ⟨?_, ?_⟩
      · rw [List.foldl_cons, hstep, this.1, hcard, hUn]
        simp only [List.length_cons]
        omega
      · intro e
        rw [List.foldl_cons, hstep, ← hUn]
        exact this.2 e

/-- The score of a fresh scorer over `l`: checks minus distinct digits. -/
theorem scorerScore_eq (l : List ℕ) :
    scorerScore l = l.length - l.toFinset.card := by
  have h := scorer_foldl l 0 0 ∅ (by simp)
  unfold scorerScore scorerRun
  rw [h.1]
  simp

theorem toFinset_card_le_length (l : List ℕ) : l.toFinset.card ≤ l.length := by
  rw [List.card_toFinset]
  exact (List.dedup_sublist l).length_le

/-- A group scores zero exactly when its digits are pairwise distinct. -/
theorem scorerScore_eq_zero_iff (l : List ℕ) : scorerScore l = 0 ↔ l.Nodup := by
  rw [scorerScore_eq]
  constructor
  · intro h
    have hle := toFinset_card_le_length l
    have hcard : l.toFinset.card = l.length := by omega
    rw [List.card_toFinset] at hcard
    have hdedup := (List.dedup_sublist l).eq_of_length hcard
    rw [← hdedup]
    exact l.nodup_dedup
  · intro h
    rw [List.toFinset_card_of_nodup h]
    omega

/-- A nonempty group of `n` digits scores at most `n - 1`: the first
occurrence of each distinct digit never bumps the score. -/
theorem scorerScore_le (l : List ℕ) (h : l ≠ []) :
    scorerScore l ≤ l.length - 1 := by
  rw [scorerScore_eq]
  have : 0 < l.toFinset.card := by
    rcases List.exists_mem_of_ne_nil l h with ⟨x, hx⟩
    exact Finset.card_pos.mpr ⟨x, List.mem_toFinset.mpr hx⟩
  omega

/-- Summed group scores vanish exactly when every group score does. -/
theorem sum_map_eq_zero_iff {α : Type} (l : List α) (f : α → ℕ) :
    (l.map f).sum = 0 ↔ ∀ x ∈ l, f x = 0 := by
  rw [List.sum_eq_zero_iff]
  constructor
  · intro h x hx
    exact h (f x) (List.mem_map.mpr ⟨x, hx, rfl⟩)
  · rintro h y hy
    rcases List.mem_map.mp hy with ⟨x, hx, rfl⟩
    exact h x hx

/-- The `u8` accumulator fold is the exact sum taken mod 256. -/
theorem foldl_mod256 (l : List ℕ) :
    ∀ a, l.foldl (fun t s => (t + s) % 256) (a % 256) = (a + l.sum) % 256 := by
  induction l with
  | nil => intro a; simp
  | cons s t ih =>
    intro a
    rw [List.foldl_cons, Nat.mod_add_mod, ih (a + s)]
    rw [List.sum_cons]
    ring_nf

theorem count_row_duplicates8_eq (g : Board) :
    count_row_duplicates8 g = count_row_duplicates g % 256 := by
  unfold count_row_duplicates8 count_row_duplicates
  have h := foldl_mod256 (g.map scorerScore) 0
  rw [Nat.zero_mod, zero_add] at h
  rw [← h, List.foldl_map]

theorem count_box_duplicates8_eq (g : Board) (b : ℕ) :
    count_box_duplicates8 g b = count_box_duplicates g b % 256 := by
  unfold count_box_duplicates8 count_box_duplicates
  have h := foldl_mod256 (boxScores g b) 0
  rw [Nat.zero_mod, zero_add] at h
  rw [← h]

/-- The `u8` fitness is the exact fitness mod 256. -/
theorem fitness8With_eq (N b : ℕ) (g : Board) :
    fitness8With N b g = fitnessWith N b g % 256 := by
  unfold fitness8With fitnessWith
  rw [count_row_duplicates8_eq, count_row_duplicates8_eq, count_box_duplicates8_eq]
  omega

/-! ### Grid lemmas -/

theorem cell_ofFn (N : ℕ) (f : ℕ → ℕ → ℕ) (i j : ℕ) (hi : i < N) (hj : j < N) :
    cell (Board.ofFn N f) i j = f i j := by
  simp only [cell, Board.ofFn, List.getD_eq_getElem?_getD]
  rw [List.getElem?_map, List.getElem?_range hi]
  simp only [Option.map_some', Option.getD_some]
  rw [List.getElem?_map, List.getElem?_range hj]
  simp

theorem ofFn_wf (N : ℕ) (f : ℕ → ℕ → ℕ) : Board.Wf N (Board.ofFn N f) := by
  constructor
  · simp [Board.ofFn]
  · intro r hr
    rcases List.mem_map.mp hr with ⟨i, _, rfl⟩
    simp

theorem cell_eq_getElem (g : Board) (i j : ℕ) (hi : i < g.length)
    (hj : j < g[i].length) : cell g i j = g[i][j] := by
  simp only [cell, List.getD_eq_getElem?_getD]
  rw [List.getElem?_eq_getElem hi]
  simp only [Option.getD_some]
  rw [List.getElem?_eq_getElem hj]
  simp

/-- Every in-range cell of a well-formed board is a digit of some row. -/
theorem cell_mem_of_wf (N : ℕ) (g : Board) (hwf : Board.Wf N g) (i j : ℕ)
    (hi : i < N) (hj : j < N) : ∃ r ∈ g, cell g i j ∈ r := by
  have hi' : i < g.length := by rw [hwf.1]; exact hi
  have hrlen : g[i].length = N := hwf.2 g[i] (List.getElem_mem hi')
  have hj' : j < g[i].length := by rw [hrlen]; exact hj
  refine ⟨g[i], List.getElem_mem hi', ?_⟩
  rw [cell_eq_getElem g i j hi' hj']
  exact List.getElem_mem hj'

/-- The rows of the transpose are exactly the columns. -/
theorem transpose_mem (N : ℕ) (g : Board) (c : List ℕ) :
    c ∈ transpose N g ↔ ∃ i, i < N ∧ c = (List.range N).map fun j => cell g j i := by
  unfold transpose Board.ofFn
  constructor
  · intro hc
    rcases List.mem_map.mp hc with ⟨i, hi, rfl⟩
    exact ⟨i, List.mem_range.mp hi, rfl⟩
  · rintro ⟨i, hi, rfl⟩
    exact List.mem_map.mpr ⟨i, List.mem_range.mpr hi, rfl⟩

/-- The supported sizes are exactly the squares of the supported edges. -/
theorem boxSize_spec (N b : ℕ) (h : boxSize N = some b) : N = b * b ∧ 2 ≤ b := by
  unfold boxSize at h
  split_ifs at h with h1 h2 h3 h4 <;> injection h with h <;> subst h <;> omega

theorem boxCells_length (g : Board) (b br bc : ℕ) :
    (boxCells g b br bc).length = b * b := by
  unfold boxCells
  rw [List.length_flatMap]
  simp [Function.comp_def]

theorem boxCells_mem (g : Board) (b br bc v : ℕ) :
    v ∈ boxCells g b br bc ↔
      ∃ dr, dr < b ∧ ∃ dc, dc < b ∧ v = cell g (br * b + dr) (bc * b + dc) := by
  unfold boxCells
  constructor
  · intro hv
    rcases List.mem_flatMap.mp hv with ⟨dr, hdr, hv⟩
    rcases List.mem_map.mp hv with ⟨dc, hdc, rfl⟩
    exact ⟨dr, List.mem_range.mp hdr, dc, List.mem_range.mp hdc, rfl⟩
  · rintro ⟨dr, hdr, dc, hdc, rfl⟩
    exact List.mem_flatMap.mpr ⟨dr, List.mem_range.mpr hdr,
      List.mem_map.mpr ⟨dc, List.mem_range.mpr hdc, rfl⟩⟩

theorem box_index_lt (b br bc dr dc : ℕ) (hbr : br < b) (hbc : bc < b)
    (hdr : dr < b) (hdc : dc < b) :
    br * b + dr < b * b ∧ bc * b + dc < b * b := by
  constructor <;> nlinarith

/-- Zero duplicate counts characterize pairwise-distinct groups. -/
theorem count_row_duplicates_eq_zero_iff (g : Board) :
    count_row_duplicates g = 0 ↔ ∀ r ∈ g, r.Nodup := by
  unfold count_row_duplicates
  rw [sum_map_eq_zero_iff]
  constructor
  · intro h r hr
    exact (scorerScore_eq_zero_iff r).mp (h r hr)
  · intro h r hr
    exact (scorerScore_eq_zero_iff r).mpr (h r hr)

theorem count_box_duplicates_eq_zero_iff (g : Board) (b : ℕ) :
    count_box_duplicates g b = 0 ↔
      ∀ br < b, ∀ bc < b, (boxCells g b br bc).Nodup := by
  unfold count_box_duplicates boxScores
  rw [List.sum_eq_zero_iff]
  constructor
  · intro h br hbr bc hbc
    refine (scorerScore_eq_zero_iff _).mp (h _ ?_)
    exact List.mem_flatMap.mpr ⟨br, List.mem_range.mpr hbr,
      List.mem_map.mpr ⟨bc, List.mem_range.mpr hbc, rfl⟩⟩
  · intro h x hx
    rcases List.mem_flatMap.mp hx with ⟨br, hbr, hx⟩
    rcases List.mem_map.mp hx with ⟨bc, hbc, rfl⟩
    exact (scorerScore_eq_zero_iff _).mpr
      (h br (List.mem_range.mp hbr) bc (List.mem_range.mp hbc))

/-- A list of `N` digits drawn from `{1, ..., N}` is duplicate-free exactly
when it is a permutation of `1..N`. -/
theorem nodup_iff_perm_range' (N : ℕ) (l : List ℕ) (hlen : l.length = N)
    (hb : ∀ v ∈ l, 1 ≤ v ∧ v ≤ N) : l.Nodup ↔ l.Perm (List.range' 1 N) := by
  constructor
  · intro hnd
    have hsub : l ⊆ List.range' 1 N := by
      intro v hv
      rw [List.mem_range'_1]
      have := hb v hv
      omega
    exact (hnd.subperm hsub).perm_of_length_le (by rw [List.length_range', hlen])
  · intro hp
    exact hp.nodup_iff.mpr (List.nodup_range' 1 N)

theorem cell_bounds (N : ℕ) (g : Board) (hwf : Board.Wf N g)
    (hcells : ∀ r ∈ g, ∀ v ∈ r, 1 ≤ v ∧ v ≤ N) (i j : ℕ) (hi : i < N)
    (hj : j < N) : 1 ≤ cell g i j ∧ cell g i j ≤ N := by
  rcases cell_mem_of_wf N g hwf i j hi hj with ⟨r, hr, hv⟩
  exact hcells r hr _ hv

/-- Zero exact fitness says exactly that all three duplicate groups are
duplicate-free. -/
theorem fitnessWith_eq_zero_iff (N b : ℕ) (g : Board) :
    fitnessWith N b g = 0 ↔
      (∀ r ∈ g, r.Nodup) ∧ (∀ c ∈ transpose N g, c.Nodup) ∧
      ∀ br < b, ∀ bc < b, (boxCells g b br bc).Nodup := by
  unfold fitnessWith
  constructor
  · intro h
    refine ⟨(count_row_duplicates_eq_zero_iff g).mp (by omega),
      (count_row_duplicates_eq_zero_iff (transpose N g)).mp (by omega),
      (count_box_duplicates_eq_zero_iff g b).mp (by omega)⟩
  · rintro ⟨h1, h2, h3⟩
    rw [(count_row_duplicates_eq_zero_iff g).mpr h1,
      (count_row_duplicates_eq_zero_iff (transpose N g)).mpr h2,
      (count_box_duplicates_eq_zero_iff g b).mpr h3]

/-! ### Bounds on the duplicate counts (no `u8` wrap-around for `N ≤ 9`) -/

theorem boxSize_cases (N b : ℕ) (h : boxSize N = some b) :
    (N = 4 ∧ b = 2) ∨ (N = 9 ∧ b = 3) ∨ (N = 16 ∧ b = 4) ∨ (N = 25 ∧ b = 5) := by
  unfold boxSize at h
  split_ifs at h with h1 h2 h3 h4 <;> injection h with h <;> subst h <;> omega

theorem count_row_duplicates_le (N : ℕ) (g : Board) (hwf : Board.Wf N g)
    (hN : 1 ≤ N) : count_row_duplicates g ≤ N * (N - 1) := by
  unfold count_row_duplicates
  have hbound : ∀ x ∈ g.map scorerScore, x ≤ N - 1 := by
    intro x hx
    rcases List.mem_map.mp hx with ⟨r, hr, rfl⟩
    have hl : r.length = N := hwf.2 r hr
    have hne : r ≠ [] := by
      intro h0
      rw [h0] at hl
      simp at hl
      omega
    have := scorerScore_le r hne
    omega
  have h := List.sum_le_card_nsmul (g.map scorerScore) (N - 1) hbound
  rw [List.length_map, hwf.1, smul_eq_mul] at h
  exact h

theorem count_box_duplicates_le (g : Board) (b : ℕ) (hb1 : 1 ≤ b) :
    count_box_duplicates g b ≤ (b * b) * (b * b - 1) := by
  unfold count_box_duplicates
  have hpos : 0 < b * b := Nat.mul_pos hb1 hb1
  have hbound : ∀ x ∈ boxScores g b, x ≤ b * b - 1 := by
    intro x hx
    unfold boxScores at hx
    rcases List.mem_flatMap.mp hx with ⟨br, hbr, hx⟩
    rcases List.mem_map.mp hx with ⟨bc, hbc, rfl⟩
    have hbl : (boxCells g b br bc).length = b * b := boxCells_length g b br bc
    have hne : boxCells g b br bc ≠ [] := by
      intro h0
      rw [h0] at hbl
      simp at hbl
      omega
    have := scorerScore_le _ hne
    omega
  have h := List.sum_le_card_nsmul (boxScores g b) (b * b - 1) hbound
  have hlen : (boxScores g b).length = b * b := by
    unfold boxScores
    rw [List.length_flatMap]
    simp [Function.comp_def]
  rw [hlen, smul_eq_mul] at h
  exact h

/-- The exact fitness never exceeds three times the per-group maximum. -/
theorem fitnessWith_le (N b : ℕ) (g : Board) (hb : boxSize N = some b)
    (hwf : Board.Wf N g) : fitnessWith N b g ≤ 3 * (N * (N - 1)) := by
  have hNb := boxSize_spec N b hb
  have hN1 : 1 ≤ N := by
    rcases boxSize_cases N b hb with ⟨h, _⟩ | ⟨h, _⟩ | ⟨h, _⟩ | ⟨h, _⟩ <;> omega
  have hb1 : 1 ≤ b := by omega
  have h1 := count_row_duplicates_le N g hwf hN1
  have h2 := count_row_duplicates_le N (transpose N g) (ofFn_wf N _) hN1
  have h3 := count_box_duplicates_le g b hb1
  rw [← hNb.1] at h3
  unfold fitnessWith
  omega

/-- For the supported sizes with `N ≤ 9` no `u8` accumulator of
`Board::fitness` can wrap, so the `u8` fitness is the exact one. -/
theorem fitness8_eq_fitness (N b : ℕ) (g : Board) (hb : boxSize N = some b)
    (hN : N ≤ 9) (hwf : Board.Wf N g) : fitness8 N g = fitness N g := by
  have hbound := fitnessWith_le N b g hb hwf
  have h216 : 3 * (N * (N - 1)) ≤ 216 := by
    rcases boxSize_cases N b hb with ⟨rfl, rfl⟩ | ⟨rfl, rfl⟩ | ⟨rfl, _⟩ | ⟨rfl, _⟩ <;>
      omega
  rw [fitness8, fitness, hb]
  simp only [Option.map_some']
  rw [fitness8With_eq, Nat.mod_eq_of_lt (by omega)]

/-- C1 (corrected): on a well-formed board of a supported size `N ≤ 9`
with every cell in `{1, ..., N}` — every board `run_simulation` actually
scores is blank-free like this, since overlays of a fully generated
candidate have no zero cells — the `u8` fitness the code returns is zero
exactly when every row, every column, and every box is a permutation of
`1..N`. Neither restriction can be dropped: a board with blanks can score
zero without being a solution, and for `N ∈ {16, 25}` the `u8`
accumulators can wrap to zero on invalid blank-free boards; the
counterexample exhibits both. -/
theorem C1_fitness_zero_iff_valid_solution (N b : ℕ) (g : Board)
    (hb : boxSize N = some b) (hN : N ≤ 9) (hwf : Board.Wf N g)
    (hcells : ∀ r ∈ g, ∀ v ∈ r, 1 ≤ v ∧ v ≤ N) :
    fitness8 N g = some 0 ↔
      (∀ r ∈ g, r.Perm (List.range' 1 N)) ∧
      (∀ c ∈ transpose N g, c.Perm (List.range' 1 N)) ∧
      ∀ br < b, ∀ bc < b, (boxCells g b br bc).Perm (List.range' 1 N) := by
  have hNb := boxSize_spec N b hb
  have hfit : fitness8 N g = some 0 ↔ fitnessWith N b g = 0 := by
    rw [fitness8_eq_fitness N b g hb hN hwf, fitness, hb]
    simp
  have hrow : ∀ r ∈ g, (r.Nodup ↔ r.Perm (List.range' 1 N)) := fun r hr =>
    nodup_iff_perm_range' N r (hwf.2 r hr) (hcells r hr)
  have hcol : ∀ c ∈ transpose N g, (c.Nodup ↔ c.Perm (List.range' 1 N)) := by
    intro c hc
    rcases (transpose_mem N g c).mp hc with ⟨i, hi, rfl⟩
    refine nodup_iff_perm_range' N _ (by simp) ?_
    intro v hv
    rcases List.mem_map.mp hv with ⟨j, hj, rfl⟩
    exact cell_bounds N g hwf hcells j i (List.mem_range.mp hj) hi
  have hbox : ∀ br < b, ∀ bc < b,
      ((boxCells g b br bc).Nodup ↔ (boxCells g b br bc).Perm (List.range' 1 N)) := by
    intro br hbr bc hbc
    refine nodup_iff_perm_range' N _ (by rw [boxCells_length, hNb.1]) ?_
    intro v hv
    rcases (boxCells_mem g b br bc v).mp hv with ⟨dr, hdr, dc, hdc, rfl⟩
    have hlt := box_index_lt b br bc dr dc hbr hbc hdr hdc
    have h1 : br * b + dr < N := by rw [hNb.1]; exact hlt.1
    have h2 : bc * b + dc < N := by rw [hNb.1]; exact hlt.2
    exact cell_bounds N g hwf hcells _ _ h1 h2
  rw [hfit, fitnessWith_eq_zero_iff]
  constructor
  · rintro ⟨h1, h2, h3⟩
    exact ⟨fun r hr => (hrow r hr).mp (h1 r hr),
      fun c hc => (hcol c hc).mp (h2 c hc),
      fun br hbr bc hbc => (hbox br hbr bc hbc).mp (h3 br hbr bc hbc)⟩
  · rintro ⟨h1, h2, h3⟩
    exact ⟨fun r hr => (hrow r hr).mpr (h1 r hr),
      fun c hc => (hcol c hc).mpr (h2 c hc),
      fun br hbr bc hbc => (hbox br hbr bc hbc).mpr (h3 br hbr bc hbc)⟩

/-- A 4×4 Latin square over `{0, 1, 2, 3}` whose boxes are also
duplicate-free: it contains blanks, so it is not a Sudoku solution. -/
def latinWithZero : Board :=
  [[0, 1, 2, 3], [2, 3, 0, 1], [1, 0, 3, 2], [3, 2, 1, 0]]

/-- A 25×25 board of ones with three twos placed so that exactly eight
groups (two rows, three columns, three boxes) contain a 2: its exact
duplicate total is `1875 - 75 - 8 = 1792 = 7 * 256`, which the `u8`
accumulators of `Board::fitness` wrap to 0. -/
def wrapRowA : List ℕ := [2, 1, 1, 1, 1, 1, 1, 2] ++ List.replicate 17 1

def wrapRowB : List ℕ := List.replicate 13 1 ++ [2] ++ List.replicate 11 1

def wrapBoard25 : Board :=
  [wrapRowA, wrapRowB] ++ List.replicate 23 (List.replicate 25 1)

set_option maxRecDepth 40000 in
/-- C1 counterexample: the claim as stated fails in two independent ways.
A grid containing blanks (digit 0, allowed by the data model for base
puzzles) scores fitness 0 while no row is a permutation of `1..N`; and on
the supported size `N = 25` a well-formed blank-free board with exact
duplicate total `1792 = 7 * 256` makes the code's `u8` fitness wrap to
zero although no row is a permutation of `1..25`. -/
theorem C1_counterexample :
    (Board.Wf 4 latinWithZero ∧
      fitness8 4 latinWithZero = some 0 ∧ fitness 4 latinWithZero = some 0 ∧
      ¬ ∀ r ∈ latinWithZero, r.Perm (List.range' 1 4)) ∧
    (Board.Wf 25 wrapBoard25 ∧
      (∀ r ∈ wrapBoard25, ∀ v ∈ r, 1 ≤ v ∧ v ≤ 25) ∧
      fitness8 25 wrapBoard25 = some 0 ∧ fitness 25 wrapBoard25 = some 1792 ∧
      ¬ ∀ r ∈ wrapBoard25, r.Perm (List.range' 1 25)) := by
  constructor
  · refine ⟨by decide, by decide, by decide, ?_⟩
    intro h
    have := h [0, 1, 2, 3] (by decide)
    exact absurd this (by decide)
  · refine ⟨by decide, by decide, by decide, by decide, ?_⟩
    intro h
    have := h (List.replicate 25 1) (by decide)
    exact absurd this (by decide)

/-- A valid 4×4 solution (the `GOOD_BOARD` of the source's tests). -/
def goodBoard4 : Board :=
  [[1, 2, 3, 4], [3, 4, 1, 2], [4, 3, 2, 1], [2, 1, 4, 3]]

/-- Witness: the corrected C1 equivalence, instantiated at a concrete
well-formed blank-free 4×4 board. -/
theorem C1_witness :
    (boxSize 4 = some 2 ∧ (4 : ℕ) ≤ 9 ∧ Board.Wf 4 goodBoard4 ∧
      (∀ r ∈ goodBoard4, ∀ v ∈ r, 1 ≤ v ∧ v ≤ 4)) ∧
    (fitness8 4 goodBoard4 = some 0 ↔
      (∀ r ∈ goodBoard4, r.Perm (List.range' 1 4)) ∧
      (∀ c ∈ transpose 4 goodBoard4, c.Perm (List.range' 1 4)) ∧
      ∀ br < 2, ∀ bc < 2, (boxCells goodBoard4 2 br bc).Perm (List.range' 1 4)) :=
  ⟨⟨by decide, by decide, by decide, by decide⟩,
    C1_fitness_zero_iff_valid_solution 4 2 goodBoard4 (by decide) (by decide)
      (by decide) (by decide)⟩

/-- C7 (confirmed): `overlay` never touches a fixed (non-zero) base cell,
always fills a blank (zero) base cell with the candidate's digit, and
every cell of the result is determined by this case split. -/
theorem C7_overlay_frame (N : ℕ) (base cand : Board) (i j : ℕ) (hi : i < N)
    (hj : j < N) :
    (cell base i j ≠ 0 → cell (overlay N base cand) i j = cell base i j) ∧
    (cell base i j = 0 → cell (overlay N base cand) i j = cell cand i j) ∧
    cell (overlay N base cand) i j
      = (if cell base i j = 0 then cell cand i j else cell base i j) := by
  have h := cell_ofFn N
    (fun i j => if cell base i j = 0 then cell cand i j else cell base i j) i j hi hj
  rw [overlay, h]
  refine ⟨fun h0 => by simp only [if_neg h0], fun h0 => by simp only [if_pos h0], rfl⟩

/-- Witness: the overlay frame property at a concrete fixed cell and a
concrete blank cell. -/
theorem C7_witness :
    cell (overlay 2 [[0, 1], [1, 0]] [[2, 0], [0, 2]]) 0 0 = 2 ∧
    cell (overlay 2 [[0, 1], [1, 0]] [[2, 0], [0, 2]]) 0 1 = 1 := by
  have h00 := C7_overlay_frame 2 [[0, 1], [1, 0]] [[2, 0], [0, 2]] 0 0
    (by decide) (by decide)
  have h01 := C7_overlay_frame 2 [[0, 1], [1, 0]] [[2, 0], [0, 2]] 0 1
    (by decide) (by decide)
  exact ⟨(h00.2.1 (by decide)).trans (by decide),
    (h01.1 (by decide)).trans (by decide)⟩

/-- C8 (confirmed): a distinct sequence scores 0, every check of an
already-seen digit bumps the score by exactly one, and the final score is
the number of checks minus the number of distinct digits checked. -/
theorem C8_scorer (N : ℕ) (l : List ℕ) (_hd : ∀ d ∈ l, 1 ≤ d ∧ d ≤ N) :
    (l.Nodup → scorerScore l = 0) ∧
    (∀ s d, (Scorer.check s d).score
        = if s.seen.testBit d then s.score + 1 else s.score) ∧
    scorerScore l = l.length - l.toFinset.card :=
  ⟨fun h => (scorerScore_eq_zero_iff l).mpr h, Scorer.check_score, scorerScore_eq l⟩

/-- Witness: the scorer on the sequence `[1, 1, 2, 2, 2]` of the claim
(five checks, two distinct digits, score 3). -/
theorem C8_witness :
    (∀ d ∈ [1, 1, 2, 2, 2], 1 ≤ d ∧ d ≤ 9) ∧
    scorerScore [1, 1, 2, 2, 2] = 3 ∧
    scorerScore [1, 1, 2, 2, 2]
      = [1, 1, 2, 2, 2].length - ([1, 1, 2, 2, 2] : List ℕ).toFinset.card :=
  ⟨by decide, by decide, (C8_scorer 9 [1, 1, 2, 2, 2] (by decide)).2.2⟩

/-- C9 (confirmed): at the supported sizes with `N ≤ 9` (that is, `N = 4`
or `N = 9`), the `u8` fitness equals the exact one — no accumulator wraps —
because the exact fitness is at most `3 · N · (N − 1) ≤ 216 < 256`; the
same bound does not fit a `u8` for `N = 16` or `N = 25`. -/
theorem C9_no_u8_wrap (N b : ℕ) (g : Board) (hb : boxSize N = some b)
    (hN : N ≤ 9) (hwf : Board.Wf N g) :
    fitness8 N g = fitness N g ∧
    fitnessWith N b g ≤ 3 * (N * (N - 1)) ∧ 3 * (N * (N - 1)) ≤ 216 ∧
    ¬ 3 * (16 * (16 - 1)) ≤ 255 ∧ ¬ 3 * (25 * (25 - 1)) ≤ 255 := by
  have h216 : 3 * (N * (N - 1)) ≤ 216 := by
    rcases boxSize_cases N b hb with ⟨rfl, rfl⟩ | ⟨rfl, rfl⟩ | ⟨rfl, _⟩ | ⟨rfl, _⟩ <;>
      omega
  exact ⟨fitness8_eq_fitness N b g hb hN hwf, fitnessWith_le N b g hb hwf, h216,
    by omega, by omega⟩

/-- Witness: no `u8` wrap on a concrete 4×4 board. -/
theorem C9_witness :
    (boxSize 4 = some 2 ∧ (4 : ℕ) ≤ 9 ∧ Board.Wf 4 goodBoard4) ∧
    fitness8 4 goodBoard4 = fitness 4 goodBoard4 :=
  ⟨⟨by decide, by decide, by decide⟩,
    (C9_no_u8_wrap 4 2 goodBoard4 (by decide) (by decide) (by decide)).1⟩

/-! ### Selection lemmas -/

instance : IsTotal (Board × ℕ) fun a b => a.2 ≤ b.2 :=
  ⟨fun a b => Nat.le_total a.2 b.2⟩

instance : IsTrans (Board × ℕ) fun a b => a.2 ≤ b.2 :=
  ⟨fun _ _ _ => Nat.le_trans⟩

/-- The executable sort resolution satisfies the unstable-sort contract. -/
theorem sortSpec_insertionSort (l : List (Board × ℕ)) :
    SortSpec l (l.insertionSort fun a b => a.2 ≤ b.2) :=
  ⟨(List.perm_insertionSort _ l).symm, List.sorted_insertionSort _ l⟩

/-- In a score-sorted list, every kept entry scores at most every dropped
entry. -/
theorem sorted_take_drop (tl : List (Board × ℕ))
    (h : tl.Sorted fun a b => a.2 ≤ b.2) (k : ℕ) :
    ∀ a ∈ tl.take k, ∀ c ∈ tl.drop k, a.2 ≤ c.2 := by
  rw [← List.take_append_drop k tl] at h
  exact (List.pairwise_append.mp h).2.2

theorem natural_selectionWith_length (p : GAParams) (tl : List (Board × ℕ))
    (hk : p.num_survivors ≤ tl.length) :
    (natural_selectionWith p tl).length = p.num_survivors := by
  unfold natural_selectionWith
  rw [List.length_map, List.length_take]
  omega

/-- C3 (corrected): for every admissible outcome of the unstable sort, the
`drain` keeps exactly `num_survivors` survivors — the `f32`-rounded
product, not always the exact `⌊population · frac_reduction⌋`, see the
counterexample — and every kept score is at most every discarded score. -/
theorem C3_selection (p : GAParams) (scored tl : List (Board × ℕ))
    (hsort : SortSpec scored tl) (hk : p.num_survivors ≤ scored.length) :
    (natural_selectionWith p tl).length = p.num_survivors ∧
    ∀ a ∈ tl.take p.num_survivors, ∀ c ∈ tl.drop p.num_survivors, a.2 ≤ c.2 :=
  ⟨natural_selectionWith_length p tl (hsort.1.length_eq ▸ hk),
    sorted_take_drop tl hsort.2 p.num_survivors⟩

def pSmall : GAParams := ⟨4, 2, 2, 0, none⟩

def scoredSmall : List (Board × ℕ) := [([[1]], 1), ([[2]], 0), ([[3]], 2)]

def sortedSmall : List (Board × ℕ) := [([[2]], 0), ([[1]], 1), ([[3]], 2)]

/-- Witness: selection on a concrete three-candidate scored population. -/
theorem C3_witness :
    (SortSpec scoredSmall sortedSmall ∧ pSmall.num_survivors ≤ scoredSmall.length) ∧
    ((natural_selectionWith pSmall sortedSmall).length = pSmall.num_survivors ∧
      ∀ a ∈ sortedSmall.take pSmall.num_survivors,
        ∀ c ∈ sortedSmall.drop pSmall.num_survivors, a.2 ≤ c.2) :=
  ⟨⟨⟨by decide, by decide⟩, by decide⟩,
    C3_selection pSmall scoredSmall sortedSmall ⟨by decide, by decide⟩ (by decide)⟩

/-- C4 (corrected): the sort contract does determine the score sequence of
any prefix — in particular the survivors' scores — even though it does not
determine which tied candidate comes first. -/
theorem C4_sort_determines_scores (l tl₁ tl₂ : List (Board × ℕ))
    (h₁ : SortSpec l tl₁) (h₂ : SortSpec l tl₂) (k : ℕ) :
    (tl₁.take k).map Prod.snd = (tl₂.take k).map Prod.snd := by
  have hp : (tl₁.map Prod.snd).Perm (tl₂.map Prod.snd) :=
    (h₁.1.symm.trans h₂.1).map Prod.snd
  have hs₁ : (tl₁.map Prod.snd).Sorted (· ≤ ·) :=
    List.Pairwise.map Prod.snd (fun _ _ h => h) h₁.2
  have hs₂ : (tl₂.map Prod.snd).Sorted (· ≤ ·) :=
    List.Pairwise.map Prod.snd (fun _ _ h => h) h₂.2
  have heq := List.eq_of_perm_of_sorted hp hs₁ hs₂
  rw [List.map_take, List.map_take, heq]

def boardA : Board := [[1, 1], [1, 1]]

def boardB : Board := [[2, 2], [2, 2]]

def pPair : GAParams := ⟨2, 2, 2, 0, none⟩

/-- C4 counterexample: `par_sort_unstable_by_key` admits both orders of two
equally scored candidates — both satisfy the sort contract — and the two
orders give different survivor lists, so equal-score candidates are not
guaranteed to retain their input order and selection is not determined by
the score sequence alone. -/
theorem C4_counterexample :
    SortSpec [(boardA, 3), (boardB, 3)] [(boardA, 3), (boardB, 3)] ∧
    SortSpec [(boardA, 3), (boardB, 3)] [(boardB, 3), (boardA, 3)] ∧
    natural_selectionWith pPair [(boardA, 3), (boardB, 3)]
      ≠ natural_selectionWith pPair [(boardB, 3), (boardA, 3)] :=
  ⟨⟨by decide, by decide⟩, ⟨by decide, by decide⟩, by decide⟩

/-- Witness: two sort-contract outcomes of the same list have equal score
sequences on any prefix. -/
theorem C4_witness :
    (SortSpec scoredSmall sortedSmall ∧ SortSpec scoredSmall sortedSmall) ∧
    (sortedSmall.take 2).map Prod.snd = (sortedSmall.take 2).map Prod.snd :=
  ⟨⟨⟨by decide, by decide⟩, ⟨by decide, by decide⟩⟩,
    C4_sort_determines_scores scoredSmall sortedSmall sortedSmall
      ⟨by decide, by decide⟩ ⟨by decide, by decide⟩ 2⟩

/-! ### Evaluating the f32 model -/

theorem rexp_eq (q : ℚ) (e : ℕ) (h1 : (2 : ℚ) ^ e ≤ q) (h2 : q < 2 ^ (e + 1)) :
    rexp q = (e : ℤ) := by
  have hpow : (0 : ℚ) < 2 ^ (200 : ℕ) := by positivity
  have hx1 : ((2 : ℚ) ^ (e + 200)) ≤ q * 2 ^ (200 : ℕ) := by
    calc ((2 : ℚ) ^ (e + 200)) = 2 ^ e * 2 ^ (200 : ℕ) := by ring
    _ ≤ q * 2 ^ (200 : ℕ) := mul_le_mul_of_nonneg_right h1 (le_of_lt hpow)
  have hx2 : q * 2 ^ (200 : ℕ) < 2 ^ (e + 201) := by
    calc q * 2 ^ (200 : ℕ) < 2 ^ (e + 1) * 2 ^ (200 : ℕ) :=
          mul_lt_mul_of_pos_right h2 hpow
    _ = 2 ^ (e + 201) := by ring
  have hfl1 : ((2 : ℤ) ^ (e + 200)) ≤ ⌊q * 2 ^ (200 : ℕ)⌋ := by
    rw [Int.le_floor]
    push_cast
    exact hx1
  have hfl2 : ⌊q * 2 ^ (200 : ℕ)⌋ < (2 : ℤ) ^ (e + 201) := by
    rw [Int.floor_lt]
    push_cast
    exact hx2
  have hnn : (0 : ℤ) ≤ ⌊q * 2 ^ (200 : ℕ)⌋ := le_trans (by positivity) hfl1
  have hcast : ((Int.toNat ⌊q * 2 ^ (200 : ℕ)⌋ : ℤ)) = ⌊q * 2 ^ (200 : ℕ)⌋ :=
    Int.toNat_of_nonneg hnn
  have hlowN : 2 ^ (e + 200) ≤ Int.toNat ⌊q * 2 ^ (200 : ℕ)⌋ := by
    have h : ((2 : ℤ) ^ (e + 200)) ≤ (Int.toNat ⌊q * 2 ^ (200 : ℕ)⌋ : ℤ) := by
      rw [hcast]
      exact hfl1
    exact_mod_cast h
  have hupN : Int.toNat ⌊q * 2 ^ (200 : ℕ)⌋ < 2 ^ (e + 200 + 1) := by
    have h : (Int.toNat ⌊q * 2 ^ (200 : ℕ)⌋ : ℤ) < (2 : ℤ) ^ (e + 201) := by
      rw [hcast]
      exact hfl2
    have h2 : (2 : ℕ) ^ (e + 200 + 1) = 2 ^ (e + 201) := by
      rw [show e + 200 + 1 = e + 201 from by omega]
    rw [h2]
    exact_mod_cast h
  have hlog : Nat.log 2 (Int.toNat ⌊q * 2 ^ (200 : ℕ)⌋) = e + 200 :=
    Nat.log_eq_of_pow_le_of_lt_pow hlowN hupN
  unfold rexp
  rw [hlog]
  push_cast
  ring

theorem f32round_pos (q : ℚ) (hq : 0 < q) :
    f32round q = (roundEvenQ (q / 2 ^ (rexp q - 23)) : ℚ) * 2 ^ (rexp q - 23) := by
  unfold f32round
  rw [if_neg (ne_of_gt hq), if_pos hq]

/-- The `f32` product `100.0f32 * s` for the representable fraction
`s = 8556380 / 2^24 ≈ 0.51`: the exact product `51 - 2^(-20)` rounds up to
exactly `51.0`, so `num_survivors` becomes 51 while the exact floor is 50. -/
theorem survivors_c3 :
    Int.toNat ⌊f32round ((100 : ℚ) * (8556380 / 16777216))⌋ = 51 := by
  have he : rexp ((100 : ℚ) * (8556380 / 16777216)) = ((5 : ℕ) : ℤ) :=
    rexp_eq _ 5 (by norm_num) (by norm_num)
  rw [f32round_pos _ (by norm_num), he]
  have hzp : ((2 : ℚ) ^ (((5 : ℕ) : ℤ) - 23)) = (2 ^ (18 : ℕ))⁻¹ := by
    rw [show ((5 : ℕ) : ℤ) - 23 = -((18 : ℕ) : ℤ) from by norm_num]
    rw [zpow_neg, zpow_natCast]
  rw [hzp]
  have harg : ((100 : ℚ) * (8556380 / 16777216)) / (2 ^ (18 : ℕ))⁻¹
      = 53477375 / 4 := by
    norm_num
  rw [harg]
  have hfl : (⌊(53477375 / 4 : ℚ)⌋ : ℤ) = 13369343 := by
    rw [Int.floor_eq_iff]
    norm_num
  have hre : roundEvenQ (53477375 / 4) = 13369344 := by
    unfold roundEvenQ
    rw [hfl]
    norm_num
  rw [hre]
  have : ((13369344 : ℤ) : ℚ) * (2 ^ (18 : ℕ))⁻¹ = 51 := by norm_num
  rw [this, show ⌊(51 : ℚ)⌋ = (51 : ℤ) from by norm_num]
  rfl

/-- The `f32` product `100.0f32 * s` for `s = 8724152 / 2^24 ≈ 0.52`: the
exact product `52 - 2^(-19)` is exactly half an ulp below 52 and the tie
breaks to the even significand, i.e. to `52.0`, so `num_survivors` becomes
52 while the exact floor is 51. -/
theorem survivors_c10 :
    Int.toNat ⌊f32round ((100 : ℚ) * (8724152 / 16777216))⌋ = 52 := by
  have he : rexp ((100 : ℚ) * (8724152 / 16777216)) = ((5 : ℕ) : ℤ) :=
    rexp_eq _ 5 (by norm_num) (by norm_num)
  rw [f32round_pos _ (by norm_num), he]
  have hzp : ((2 : ℚ) ^ (((5 : ℕ) : ℤ) - 23)) = (2 ^ (18 : ℕ))⁻¹ := by
    rw [show ((5 : ℕ) : ℤ) - 23 = -((18 : ℕ) : ℤ) from by norm_num]
    rw [zpow_neg, zpow_natCast]
  rw [hzp]
  have harg : ((100 : ℚ) * (8724152 / 16777216)) / (2 ^ (18 : ℕ))⁻¹
      = 27262975 / 2 := by
    norm_num
  rw [harg]
  have hfl : (⌊(27262975 / 2 : ℚ)⌋ : ℤ) = 13631487 := by
    rw [Int.floor_eq_iff]
    norm_num
  have hre : roundEvenQ (27262975 / 2) = 13631488 := by
    unfold roundEvenQ
    rw [hfl]
    norm_num
  rw [hre]
  have : ((13631488 : ℤ) : ℚ) * (2 ^ (18 : ℕ))⁻¹ = 52 := by norm_num
  rw [this, show ⌊(52 : ℚ)⌋ = (52 : ℤ) from by norm_num]
  rfl

theorem gaparams_new_c3 :
    GAParams.new 100 (8556380 / 16777216) (1 / 20) none
      = some ⟨100, 51, 4, 1 / 20, none⟩ := by
  unfold GAParams.new MAX_POPULATION
  rw [show (((100 : ℕ) : ℚ) * (8556380 / 16777216))
      = (100 : ℚ) * (8556380 / 16777216) from by norm_num]
  rw [survivors_c3]
  norm_num

def scoredBig : List (Board × ℕ) := List.replicate 100 ([[1]], 5)

/-- C3 counterexample: with population 100 and the valid selection
fraction `8556380 / 2^24 ∈ (0, 1]`, `GAParams::new` derives 51 survivors
(the `f32` rounding), natural selection keeps 51 candidates, yet
`⌊population · frac_reduction⌋ = 50`: the claimed survivor count is off by
one on this parameter set. -/
theorem C3_counterexample :
    GAParams.new 100 (8556380 / 16777216) (1 / 20) none
      = some ⟨100, 51, 4, 1 / 20, none⟩ ∧
    (natural_selection ⟨100, 51, 4, 1 / 20, none⟩ scoredBig).length = 51 ∧
    ⌊(100 : ℚ) * (8556380 / 16777216)⌋ = 50 := by
  refine ⟨gaparams_new_c3, ?_, ?_⟩
  · unfold natural_selection
    have hk : (51 : ℕ) ≤ (scoredBig.insertionSort fun a b => a.2 ≤ b.2).length := by
      rw [List.length_insertionSort]
      simp [scoredBig]
    exact natural_selectionWith_length _ _ hk
  · rw [Int.floor_eq_iff]
    norm_num

/-! ### Evolution lemmas -/

theorem make_children_length (N : ℕ) (p : GAParams) (parents : Board × Board)
    (rng : Rng) (pairIdx : ℕ) :
    (make_children N p parents rng pairIdx).length
      = p.num_children_per_parent_pairs := by
  unfold make_children
  rw [List.length_map, List.length_range]

theorem splitParity_length (l : List Board) :
    (splitParity l).1.length = (l.length + 1) / 2 ∧
    (splitParity l).2.length = l.length / 2 := by
  induction l with
  | nil => simp [splitParity]
  | cons a t ih =>
    refine ⟨?_, ?_⟩ <;> simp only [splitParity, List.length_cons, ih.1, ih.2] <;>
      try omega

theorem make_parents_length (survivors : List Board) :
    (make_parents survivors).length = survivors.length / 2 := by
  unfold make_parents
  rw [List.length_zip, (splitParity_length survivors).1,
    (splitParity_length survivors).2]
  omega

theorem natural_selection_length (p : GAParams) (scored : List (Board × ℕ))
    (hk : p.num_survivors ≤ scored.length) :
    (natural_selection p scored).length = p.num_survivors := by
  unfold natural_selection
  exact natural_selectionWith_length p _ (by rw [List.length_insertionSort]; exact hk)

/-- The evolved generation has `pairs * children_per_pair` boards. -/
theorem evolve_length (N : ℕ) (p : GAParams) (scored : List (Board × ℕ))
    (rng : Rng) (hk : p.num_survivors ≤ scored.length) :
    (evolve N p scored rng).length
      = (p.num_survivors / 2) * p.num_children_per_parent_pairs := by
  unfold evolve
  rw [List.length_flatMap]
  have hmap : ((make_parents (natural_selection p scored)).enum.map
        (List.length ∘ fun pr => make_children N p pr.2 rng pr.1))
      = (make_parents (natural_selection p scored)).enum.map
        fun _ => p.num_children_per_parent_pairs := by
    apply List.map_congr_left
    intro a _
    exact make_children_length N p a.2 rng a.1
  rw [hmap, List.map_const', List.sum_replicate, smul_eq_mul, List.enum_length,
    make_parents_length, natural_selection_length p scored hk]

/-- C5 (confirmed): with mutation rate zero, every cell of every child of a
parent pair is the corresponding cell of parent X or of parent Y, for every
valid random stream (`rng.gen::<f32>()` draws are non-negative, so they are
never below a zero mutation rate). -/
theorem C5_crossover_support (N : ℕ) (p : GAParams) (x y : Board) (rng : Rng)
    (pairIdx : ℕ) (hm : p.mutation_rate = 0) (hrng : ∀ k, 0 ≤ rng.gen k) :
    ∀ child ∈ make_children N p (x, y) rng pairIdx, ∀ i j, i < N → j < N →
      cell child i j = cell x i j ∨ cell child i j = cell y i j := by
  intro child hchild i j hi hj
  unfold make_children at hchild
  rcases List.mem_map.mp hchild with ⟨c, _, rfl⟩
  rw [cell_ofFn N _ i j hi hj]
  unfold make_child_cell
  rw [hm, if_neg (not_lt.mpr (hrng _))]
  generalize rng.inherits_from (Nat.pair pairIdx (Nat.pair c (Nat.pair i j))) = v
  fin_cases v
  · exact Or.inl rfl
  · exact Or.inr rfl

/-- The all-constant oracle streams used by concrete witnesses. -/
def rngZero : Rng := ⟨fun _ => 0, fun _ => 0, fun _ => 1⟩

def parentX : Board := [[1, 2], [3, 4]]

def parentY : Board := [[5, 6], [7, 8]]

/-- Witness: zero-mutation crossover on two concrete 2×2 parents. -/
theorem C5_witness :
    pPair.mutation_rate = 0 ∧
    ∀ child ∈ make_children 2 pPair (parentX, parentY) rngZero 0,
      ∀ i j, i < 2 → j < 2 →
        cell child i j = cell parentX i j ∨ cell child i j = cell parentY i j :=
  ⟨rfl, C5_crossover_support 2 pPair parentX parentY rngZero 0 rfl
    fun _ => le_refl 0⟩

/-- C6 (confirmed): with a configured positive restart interval `r`, the
evolution step returns a freshly generated random initial population —
bypassing selection, pairing and crossover — exactly on the generation
counters that are positive multiples of `r`, and the evolved population on
every other counter. -/
theorem C6_restart (N : ℕ) (p : GAParams) (r : ℕ) (hr : p.restart = some r)
    (hrpos : 0 < r) (generation : ℕ) (scored : List (Board × ℕ)) (rng : Rng) :
    ((∃ k, 0 < k ∧ generation = k * r) →
      next_generation N p generation scored rng
        = generate_initial_population N p rng) ∧
    ((¬ ∃ k, 0 < k ∧ generation = k * r) →
      next_generation N p generation scored rng = evolve N p scored rng) := by
  have hcond : (generation % r = 0 ∧ generation ≠ 0)
      ↔ ∃ k, 0 < k ∧ generation = k * r := by
    constructor
    · rintro ⟨h0, hne⟩
      rcases Nat.dvd_of_mod_eq_zero h0 with ⟨k, hk⟩
      refine ⟨k, ?_, by rw [hk, mul_comm]⟩
      rcases Nat.eq_zero_or_pos k with h | h
      · subst h
        simp only [mul_zero] at hk
        exact absurd hk hne
      · exact h
    · rintro ⟨k, hk0, rfl⟩
      exact ⟨Nat.mul_mod_left k r, Nat.mul_ne_zero (by omega) (by omega)⟩
  unfold next_generation
  rw [hr]
  constructor
  · intro h
    show (if generation % r = 0 ∧ generation ≠ 0 then
        generate_initial_population N p rng else evolve N p scored rng)
      = generate_initial_population N p rng
    rw [if_pos (hcond.mpr h)]
  · intro h
    show (if generation % r = 0 ∧ generation ≠ 0 then
        generate_initial_population N p rng else evolve N p scored rng)
      = evolve N p scored rng
    rw [if_neg fun hc => h (hcond.mp hc)]

def pRestart : GAParams := ⟨2, 2, 2, 0, some 2⟩

/-- Witness: with restart interval 2, generation 4 restarts and generation
3 evolves. -/
theorem C6_witness :
    (pRestart.restart = some 2 ∧ 0 < 2) ∧
    next_generation 4 pRestart 4 [] rngZero
      = generate_initial_population 4 pRestart rngZero ∧
    next_generation 4 pRestart 3 [] rngZero = evolve 4 pRestart [] rngZero :=
  ⟨⟨rfl, by decide⟩,
    (C6_restart 4 pRestart 2 rfl (by decide) 4 [] rngZero).1 ⟨2, by omega, by omega⟩,
    (C6_restart 4 pRestart 2 rfl (by decide) 3 [] rngZero).2
      (by rintro ⟨k, hk, h⟩; omega)⟩

/-- C10 (corrected): the next generation (no restart) has exactly
`pairs * (population / pairs)` boards, where `pairs = num_survivors / 2`
derives from the `f32`-rounded survivor count (not always the exact
`⌊population · s⌋`, see the counterexample); this is at most the population
and falls strictly short of it exactly when `pairs` does not divide the
population. -/
theorem C10_next_generation_size (N : ℕ) (p : GAParams)
    (scored : List (Board × ℕ)) (rng : Rng) (hlen : scored.length = p.population)
    (hns : p.num_survivors ≤ p.population) (_hpairs : 1 ≤ p.num_survivors / 2)
    (hchildren : p.num_children_per_parent_pairs
      = p.population / (p.num_survivors / 2)) :
    (evolve N p scored rng).length
        = (p.num_survivors / 2) * (p.population / (p.num_survivors / 2)) ∧
    (evolve N p scored rng).length ≤ p.population ∧
    ((evolve N p scored rng).length < p.population ↔
      ¬ (p.num_survivors / 2) ∣ p.population) := by
  have h := evolve_length N p scored rng (by omega)
  rw [hchildren] at h
  have hmd := Nat.mod_add_div p.population (p.num_survivors / 2)
  have hdvd : (p.num_survivors / 2) ∣ p.population
      ↔ p.population % (p.num_survivors / 2) = 0 :=
    Nat.dvd_iff_mod_eq_zero
  refine ⟨h, ?_, ?_⟩
  · rw [h]
    omega
  · rw [h, hdvd]
    omega

def pNine : GAParams := ⟨9, 4, 4, 0, none⟩

def scoredNine : List (Board × ℕ) := List.replicate 9 (boardA, 1)

/-- Witness: population 9 with 4 survivors gives 2 pairs of 4 children
each — 8 boards, strictly fewer than the 9 that went in. -/
theorem C10_witness :
    (scoredNine.length = pNine.population ∧ pNine.num_survivors ≤ pNine.population
      ∧ 1 ≤ pNine.num_survivors / 2
      ∧ pNine.num_children_per_parent_pairs
          = pNine.population / (pNine.num_survivors / 2)) ∧
    ((evolve 4 pNine scoredNine rngZero).length = 2 * 4 ∧
      (evolve 4 pNine scoredNine rngZero).length ≤ 9 ∧
      ((evolve 4 pNine scoredNine rngZero).length < 9 ↔ ¬ (2 : ℕ) ∣ 9)) :=
  ⟨⟨by decide, by decide, by decide, by decide⟩,
    C10_next_generation_size 4 pNine scoredNine rngZero (by decide) (by decide)
      (by decide) (by decide)⟩

theorem gaparams_new_c10 :
    GAParams.new 100 (8724152 / 16777216) (1 / 20) none
      = some ⟨100, 52, 3, 1 / 20, none⟩ := by
  unfold GAParams.new MAX_POPULATION
  rw [show (((100 : ℕ) : ℚ) * (8724152 / 16777216))
      = (100 : ℚ) * (8724152 / 16777216) from by norm_num]
  rw [survivors_c10]
  norm_num

def pBig : GAParams := ⟨100, 52, 3, 1 / 20, none⟩

def scoredHundred : List (Board × ℕ) := List.replicate 100 (boardA, 5)

/-- C10 counterexample: with population 100 and the valid fraction
`8724152 / 2^24 ∈ (0, 1]`, the code derives 52 survivors (`f32` tie
rounding), hence 26 pairs of 3 children — 78 boards — while the claimed
formula `pairs = ⌊⌊P·s⌋ / 2⌋ = 25` predicts `25 · ⌊100 / 25⌋ = 100`
boards. -/
theorem C10_counterexample :
    GAParams.new 100 (8724152 / 16777216) (1 / 20) none = some pBig ∧
    (evolve 4 pBig scoredHundred rngZero).length = 78 ∧
    ⌊(100 : ℚ) * (8724152 / 16777216)⌋ = 51 ∧
    (Int.toNat 51 / 2) * (100 / (Int.toNat 51 / 2)) = 100 ∧ (78 : ℕ) ≠ 100 := by
  refine ⟨gaparams_new_c10, ?_, ?_, by decide, by decide⟩
  · have h := evolve_length 4 pBig scoredHundred rngZero
      (by simp [pBig, scoredHundred])
    rw [h]
    decide
  · rw [Int.floor_eq_iff]
    norm_num

/-! ### Driver lemmas -/

theorem collect_scoreStep_ok (N b : ℕ) (base : Board) (pop : List Board)
    (h : ∀ c ∈ pop, fitness8With N b (overlay N base c) ≠ 0) :
    collectExcept (pop.map (scoreStep N b base))
      = Except.ok (scoredOf N b base pop) := by
  induction pop with
  | nil => rfl
  | cons c t ih =>
    have hc := h c (List.mem_cons_self c t)
    rw [List.map_cons, scoreStep, if_neg hc]
    show (collectExcept (t.map (scoreStep N b base))).map _ = _
    rw [ih fun x hx => h x (List.mem_cons_of_mem c hx)]
    rfl

theorem collect_scoreStep_error (N b : ℕ) (base : Board) (pop : List Board)
    (hex : ∃ c ∈ pop, fitness8With N b (overlay N base c) = 0) :
    ∃ c ∈ pop, fitness8With N b (overlay N base c) = 0 ∧
      collectExcept (pop.map (scoreStep N b base))
        = Except.error (overlay N base c) := by
  induction pop with
  | nil => simp at hex
  | cons c t ih =>
    by_cases hc : fitness8With N b (overlay N base c) = 0
    · refine ⟨c, List.mem_cons_self c t, hc, ?_⟩
      rw [List.map_cons, scoreStep, if_pos hc]
      rfl
    · have hex2 : ∃ x ∈ t, fitness8With N b (overlay N base x) = 0 := by
        rcases hex with ⟨x, hx, h0⟩
        rcases List.mem_cons.mp hx with rfl | hxt
        · exact absurd h0 hc
        · exact ⟨x, hxt, h0⟩
      rcases ih hex2 with ⟨x, hxt, h0, hcol⟩
      refine ⟨x, List.mem_cons_of_mem c hxt, h0, ?_⟩
      rw [List.map_cons, scoreStep, if_neg hc]
      show (collectExcept (t.map (scoreStep N b base))).map _ = _
      rw [hcol]
      rfl

/-- C2 (corrected): on a supported size, `run_simulation` returns
`Ok(solution)` exactly when some candidate's overlay scores 0 (and the
returned board is such an overlay); otherwise it returns the matchable
`Err(NoSolutionFound)` value whose only payload is the next-generation
population — it does not carry a current-best grid, see the
counterexample. -/
theorem C2_driver_result (N b : ℕ) (p : GAParams) (generation : ℕ)
    (base : Board) (pop : List Board) (rng : Rng) (hb : boxSize N = some b) :
    ((∃ sol, run_simulation N p generation base pop rng
        = some (Except.ok sol)) ↔
      ∃ c ∈ pop, fitness8With N b (overlay N base c) = 0) ∧
    (∀ sol, run_simulation N p generation base pop rng
        = some (Except.ok sol) →
      ∃ c ∈ pop, sol = overlay N base c ∧ fitness8With N b sol = 0) ∧
    ((∀ c ∈ pop, fitness8With N b (overlay N base c) ≠ 0) →
      run_simulation N p generation base pop rng = some (Except.error
        ⟨next_generation N p generation (scoredOf N b base pop) rng⟩)) := by
  have hunfold : run_simulation N p generation base pop rng
      = match collectExcept (pop.map (scoreStep N b base)) with
        | Except.error valid_solution => some (Except.ok valid_solution)
        | Except.ok population_scores =>
            some (Except.error
              ⟨next_generation N p generation population_scores rng⟩) := by
    unfold run_simulation
    rw [hb]
  rw [hunfold]
  by_cases hex : ∃ c ∈ pop, fitness8With N b (overlay N base c) = 0
  · rcases collect_scoreStep_error N b base pop hex with ⟨c, hc, h0, hcol⟩
    rw [hcol]
    refine ⟨⟨fun _ => hex, fun _ => ⟨overlay N base c, rfl⟩⟩, ?_, ?_⟩
    · intro sol hsol
      have hsol2 : Except.ok (ε := NoSolutionFound) (overlay N base c)
          = Except.ok sol := by
        injection hsol
      have : overlay N base c = sol := by
        injection hsol2
      exact ⟨c, hc, this.symm, this ▸ h0⟩
    · intro hall
      exact absurd h0 (hall c hc)
  · have hall : ∀ c ∈ pop, fitness8With N b (overlay N base c) ≠ 0 := by
      intro c hc h0
      exact hex ⟨c, hc, h0⟩
    rw [collect_scoreStep_ok N b base pop hall]
    refine ⟨⟨?_, fun h => absurd h hex⟩, ?_, fun _ => rfl⟩
    · rintro ⟨sol, hsol⟩
      have : Except.error (ε := NoSolutionFound) (α := Board)
          ⟨next_generation N p generation (scoredOf N b base pop) rng⟩
          = Except.ok sol := by
        injection hsol
      exact absurd this (by simp)
    · intro sol hsol
      have : Except.error (ε := NoSolutionFound) (α := Board)
          ⟨next_generation N p generation (scoredOf N b base pop) rng⟩
          = Except.ok sol := by
        injection hsol
      exact absurd this (by simp)

def baseBlank4 : Board :=
  [[0, 0, 0, 0], [0, 0, 0, 0], [0, 0, 0, 0], [0, 0, 0, 0]]

def allOnes4 : Board := [[1, 1, 1, 1], [1, 1, 1, 1], [1, 1, 1, 1], [1, 1, 1, 1]]

def allTwos4 : Board := [[2, 2, 2, 2], [2, 2, 2, 2], [2, 2, 2, 2], [2, 2, 2, 2]]

def pRestartOne : GAParams := ⟨1, 1, 1, 0, some 1⟩

/-- C2 counterexample: two no-solution populations with different
best-scoring grids produce byte-for-byte identical `Err` results (the
restart branch makes the next generation independent of the input), so the
`Err` payload cannot carry "the grid that currently scores best" — the
`NoSolutionFound` struct holds only the next generation. -/
theorem C2_counterexample :
    run_simulation 4 pRestartOne 1 baseBlank4 [allOnes4] rngZero
      = some (Except.error ⟨generate_initial_population 4 pRestartOne rngZero⟩) ∧
    run_simulation 4 pRestartOne 1 baseBlank4 [allTwos4] rngZero
      = some (Except.error ⟨generate_initial_population 4 pRestartOne rngZero⟩) ∧
    best_current_grid (scoredOf 4 2 baseBlank4 [allOnes4])
      ≠ best_current_grid (scoredOf 4 2 baseBlank4 [allTwos4]) := by
  refine ⟨?_, ?_, by decide⟩ <;> rfl

/-- Witness: the driver characterization on a board solved by its single
candidate (a supported size with a zero-scoring overlay). -/
theorem C2_witness :
    boxSize 4 = some 2 ∧
    ((∃ sol, run_simulation 4 pRestartOne 7 baseBlank4 [goodBoard4] rngZero
        = some (Except.ok sol)) ↔
      ∃ c ∈ [goodBoard4], fitness8With 4 2 (overlay 4 baseBlank4 c) = 0) :=
  ⟨by decide,
    (C2_driver_result 4 2 pRestartOne 7 baseBlank4 [goodBoard4] rngZero
      (by decide)).1⟩

end GeneticSudoku
